import Mathlib

/-!
Verification of the chunked-stream decoder (`src/python/chunked_decoder.py`).

The decoder is a streaming state machine for the format
`<hex-size>\r\n<payload>\r\n ... 0\r\n\r\n`.  Python strings are modelled as
`List Char`; the output callback is modelled by returning, in order, the list
of slices the callback would have received; `raise` is modelled by `Except`.
-/

namespace ChunkedStream

/-- The four decoder states (`_STATE_SIZE`, `_STATE_PAYLOAD`,
`_STATE_EXPECT_CRLF`, `_STATE_DONE` in the source). -/
inductive DState
  | size
  | payload
  | expectCRLF
  | done
deriving DecidableEq, Repr

/-- Resume target after a CRLF delimiter (`_NEXT_SIZE`, `_NEXT_DONE`). -/
inductive NextState
  | nextSize
  | nextDone
deriving DecidableEq, Repr

/-- The three `raise` sites of `decode_chunk`: LF missing after CR in a size
line, a non-hex character in a size line, and a delimiter mismatch. -/
inductive DecodeError
  | expectedLFAfterCR
  | invalidSizeHex
  | expectedCRLF
deriving DecidableEq, Repr

/-- The error raised by `finalize` (`RuntimeError` in the source). -/
inductive IncompleteStreamError
  | notFinished
deriving DecidableEq, Repr

/-- `_hex_value` from the source: hex digit value of a character, `-1` if the
character is not a hex digit. -/
def hex_value (c : Char) : Int :=
  let o : Int := (c.toNat : Int)
  if 48 ≤ o ∧ o ≤ 57 then o - 48
  else if 65 ≤ o ∧ o ≤ 70 then o - 55
  else if 97 ≤ o ∧ o ≤ 102 then o - 87
  else -1

/-- The mutable fields of `ChunkedDecoder` (`__slots__` minus the callback). -/
structure ChunkedDecoder where
  state : DState
  saw_size_cr : Bool
  size_acc : Nat
  size_any : Bool
  remaining : Nat
  expect_index : Nat
  after_expect : NextState
deriving DecidableEq, Repr

/-- `ChunkedDecoder.__init__`. -/
def ChunkedDecoder.init : ChunkedDecoder :=
  ⟨DState.size, false, 0, false, 0, 0, NextState.nextSize⟩

/-- `ChunkedDecoder._start_expect_crlf`. -/
def ChunkedDecoder.start_expect_crlf (d : ChunkedDecoder) (next_state : NextState) :
    ChunkedDecoder :=
  { d with state := DState.expectCRLF, expect_index := 0, after_expect := next_state }

/-- `ChunkedDecoder._finish_expect_crlf`. -/
def ChunkedDecoder.finish_expect_crlf (d : ChunkedDecoder) : ChunkedDecoder :=
  { d with expect_index := 0,
           state := if d.after_expect = NextState.nextDone then DState.done else DState.size }

/-- The `for c in chunk[i:end]` accumulation loop of the SIZE state:
`acc = (acc << 4) | v`, raising on a non-hex character. -/
def accumHex : Nat → Bool → List Char → Except DecodeError (Nat × Bool)
  | acc, any, [] => .ok (acc, any)
  | acc, _, c :: cs =>
    let v := hex_value c
    if v < 0 then .error .invalidSizeHex
    else accumHex ((acc <<< 4) ||| v.toNat) true cs

/-- One slow-path character step of the EXPECT_CRLF state: compare against the
expected delimiter character, advance `_expect_index`, finish on the second. -/
def ChunkedDecoder.expectStep (d : ChunkedDecoder) (c : Char) :
    Except DecodeError ChunkedDecoder :=
  let expected := if d.expect_index = 0 then '\r' else '\n'
  if c ≠ expected then .error .expectedCRLF
  else
    let d' := { d with expect_index := d.expect_index + 1 }
    if d'.expect_index = 2 then .ok d'.finish_expect_crlf else .ok d'

/-- Termination measure helper: the PAYLOAD state may hand over to
EXPECT_CRLF without consuming input, every other step consumes a character. -/
def stateRank : DState → Nat
  | .payload => 1
  | _ => 0

theorem stateRank_le_one (s : DState) : stateRank s ≤ 1 := by
  cases s <;> simp [stateRank]

/-- Outcome of one iteration of the `while i < n` loop: either the call
returns (normally or by raising), or the loop continues with an updated
decoder on the unconsumed suffix of the fragment. -/
inductive StepOut
  | halt (r : Except DecodeError ChunkedDecoder)
  | next (d : ChunkedDecoder) (rest : List Char)
deriving Repr

/-- One iteration of the `while i < n` loop of `decode_chunk`, on a non-empty
unconsumed suffix `c :: cs` (so `chunk[i:] = c :: cs`).  Returns the callback
slices emitted during the iteration and whether the loop halts or continues.
Python `continue` maps to `StepOut.next`, `return` and `raise` map to
`StepOut.halt`. -/
def ChunkedDecoder.loopStep (d : ChunkedDecoder) (c : Char) (cs : List Char) :
    List (List Char) × StepOut :=
  match d.state with
  | .size =>
    if d.saw_size_cr then
      if c ≠ '\n' then ([], .halt (.error .expectedLFAfterCR))
      else
        let size := if d.size_any then d.size_acc else 0
        let d' : ChunkedDecoder :=
          { d with saw_size_cr := false, size_acc := 0, size_any := false,
                   remaining := size }
        if size = 0 then ([], .next (d'.start_expect_crlf .nextDone) cs)
        else ([], .next { d' with state := DState.payload } cs)
    else
      let digits := (c :: cs).takeWhile (fun x => x ≠ '\r')
      match accumHex d.size_acc d.size_any digits with
      | .error e => ([], .halt (.error e))
      | .ok av =>
        let d' : ChunkedDecoder := { d with size_acc := av.1, size_any := av.2 }
        match (c :: cs).drop digits.length with
        | [] => ([], .halt (.ok d'))
        | _ :: cs' => ([], .next { d' with saw_size_cr := true } cs')
  | .payload =>
    if d.remaining ≤ (c :: cs).length then
      (if d.remaining ≠ 0 then [(c :: cs).take d.remaining] else [],
        .next (ChunkedDecoder.start_expect_crlf { d with remaining := 0 } .nextSize)
          ((c :: cs).drop d.remaining))
    else
      ([c :: cs], .halt (.ok { d with remaining := d.remaining - (c :: cs).length }))
  | .expectCRLF =>
    if d.expect_index = 0 ∧ c = '\r' ∧ cs.head? = some '\n' then
      let d' := d.finish_expect_crlf
      if d'.state = DState.done then ([], .halt (.ok d'))
      else ([], .next d' cs.tail)
    else
      match d.expectStep c with
      | .error e => ([], .halt (.error e))
      | .ok d' =>
        if d'.state = DState.done then ([], .halt (.ok d'))
        else ([], .next d' cs)
  | .done => ([], .halt (.ok d))

/-- Every `StepOut.next` outcome strictly decreases the loop measure. -/
theorem loopStep_measure {d : ChunkedDecoder} {c : Char} {cs : List Char}
    {o : List (List Char)} {d' : ChunkedDecoder} {rest' : List Char}
    (h : d.loopStep c cs = (o, .next d' rest')) :
    2 * rest'.length + stateRank d'.state < 2 * (c :: cs).length + stateRank d.state := by
  have hb := stateRank_le_one d'.state
  obtain ⟨st, scr, acc, any, rem, idx, aft⟩ := d
  cases st
  all_goals simp only [ChunkedDecoder.loopStep] at h
  all_goals repeat' split at h
  all_goals simp only [Prod.mk.injEq, StepOut.next.injEq] at h
  all_goals obtain ⟨ho, hd, hr⟩ := h
  all_goals subst hd hr
  all_goals
    simp_all only [ChunkedDecoder.start_expect_crlf, List.length_cons, List.length_drop,
      List.length_tail, stateRank]
  all_goals try omega
  all_goals
    rename_i heq
    have := congrArg List.length heq
    simp only [List.length_drop, List.length_cons] at this
    omega

/-- The `while i < n` loop of `ChunkedDecoder.decode_chunk`, with `rest`
standing for `chunk[i:]`.  Returns the callback slices emitted (in order) and
either the final decoder state or the raised error. -/
def ChunkedDecoder.decodeLoop (d : ChunkedDecoder) (rest : List Char) :
    List (List Char) × Except DecodeError ChunkedDecoder :=
  match rest with
  | [] => ([], .ok d)
  | c :: cs =>
    match hstep : d.loopStep c cs with
    | (o, .halt r) => (o, r)
    | (o, .next d' rest') =>
      let r := decodeLoop d' rest'
      (o ++ r.1, r.2)
termination_by 2 * rest.length + stateRank d.state
decreasing_by exact loopStep_measure hstep

/-- Unfolding equation: the loop does nothing on an exhausted fragment. -/
theorem decodeLoop_nil (d : ChunkedDecoder) : d.decodeLoop [] = ([], .ok d) := by
  simp [ChunkedDecoder.decodeLoop]

/-- Unfolding equation: on a non-empty suffix the loop runs one iteration and
either halts or continues on the unconsumed suffix. -/
theorem decodeLoop_cons (d : ChunkedDecoder) (c : Char) (cs : List Char) :
    d.decodeLoop (c :: cs) =
      match d.loopStep c cs with
      | (o, .halt r) => (o, r)
      | (o, .next d' rest') => (o ++ (d'.decodeLoop rest').1, (d'.decodeLoop rest').2) := by
  rcases hstep : d.loopStep c cs with ⟨o, s⟩
  cases s
  all_goals
    simp only [ChunkedDecoder.decodeLoop]
    split
    all_goals simp_all

/-- `ChunkedDecoder.decode_chunk`: early return when already DONE, otherwise
run the loop over the whole fragment. -/
def ChunkedDecoder.decode_chunk (d : ChunkedDecoder) (chunk : List Char) :
    List (List Char) × Except DecodeError ChunkedDecoder :=
  if d.state = DState.done then ([], .ok d) else d.decodeLoop chunk

/-- `ChunkedDecoder.is_done`. -/
def ChunkedDecoder.is_done (d : ChunkedDecoder) : Bool :=
  decide (d.state = DState.done)

/-- `ChunkedDecoder.finalize`. -/
def ChunkedDecoder.finalize (d : ChunkedDecoder) : Except IncompleteStreamError Unit :=
  if d.is_done then .ok () else .error .notFinished

/-- Feed a list of fragments to the decoder in order, as successive
`decode_chunk` calls; a raised error stops the run (the exception propagates
to the caller, so later calls never happen). -/
def decodeSeq : ChunkedDecoder → List (List Char) →
    List (List Char) × Except DecodeError ChunkedDecoder
  | d, [] => ([], .ok d)
  | d, f :: fs =>
    match d.decode_chunk f with
    | (o, .error e) => (o, .error e)
    | (o, .ok d') => (o ++ (decodeSeq d' fs).1, (decodeSeq d' fs).2)

/-- Spec-side value of a hex digit string, most significant digit first:
`value = value * 16 + digit`. -/
def hexListVal (ds : List Char) : Nat :=
  ds.foldl (fun a c => a * 16 + (hex_value c).toNat) 0

/-- One encoded chunk `<digits>\r\n<payload>\r\n`. -/
def chunkEnc (ds p : List Char) : List Char :=
  ds ++ '\r' :: '\n' :: (p ++ ['\r', '\n'])

/-- A well-formed encoded stream: encoded chunks followed by the terminal
`0\r\n\r\n`. -/
def encodeStream : List (List Char × List Char) → List Char
  | [] => ['0', '\r', '\n', '\r', '\n']
  | cp :: rest => chunkEnc cp.1 cp.2 ++ encodeStream rest

/-- The decoder state after consuming a complete well-formed stream. -/
def doneDecoder : ChunkedDecoder :=
  ⟨DState.done, false, 0, false, 0, 0, NextState.nextDone⟩

/-- `_BlockCollector`: sealed blocks plus pending fragments with a running
character count and the two merge thresholds. -/
structure BlockCollector where
  blocks : List (List Char)
  pending : List (List Char)
  pending_chars : Nat
  max_pending_chars : Nat
  max_pending_parts : Nat
deriving DecidableEq, Repr

/-- `_BlockCollector.__init__` (defaults `64 * 1024` and `2048`). -/
def BlockCollector.init (max_pending_chars : Nat := 64 * 1024)
    (max_pending_parts : Nat := 2048) : BlockCollector :=
  ⟨[], [], 0, max_pending_chars, max_pending_parts⟩

/-- `_BlockCollector.flush`. -/
def BlockCollector.flush (c : BlockCollector) : BlockCollector :=
  if c.pending = [] then c
  else { c with blocks := c.blocks ++ [c.pending.flatten], pending := [], pending_chars := 0 }

/-- `_BlockCollector.push`. -/
def BlockCollector.push (c : BlockCollector) (fragment : List Char) : BlockCollector :=
  if fragment = [] then c
  else
    let c' := { c with pending := c.pending ++ [fragment],
                       pending_chars := c.pending_chars + fragment.length }
    if c'.max_pending_chars ≤ c'.pending_chars ∨ c'.max_pending_parts ≤ c'.pending.length
    then c'.flush else c'

/-- `_BlockCollector.to_string`; `self.flush()` mutates the collector, so the
new collector state is returned alongside the string. -/
def BlockCollector.to_string (c : BlockCollector) : List Char × BlockCollector :=
  if c.blocks = [] then
    if c.pending = [] then ([], c)
    else if c.pending.length = 1 then (c.pending.headD [], c)
    else (c.pending.flatten, c)
  else
    let c' := c.flush
    if c'.blocks.length = 1 then (c'.blocks.headD [], c')
    else (c'.blocks.flatten, c')

/-- One call in a usage trace of the collector. -/
inductive CollectorOp
  | push (s : List Char)
  | flush
  | result
deriving Repr

/-- Run a trace of collector calls, threading the state (including the state
change `to_string` makes via its internal `flush`). -/
def runCollector : BlockCollector → List CollectorOp → BlockCollector
  | c, [] => c
  | c, .push s :: ops => runCollector (c.push s) ops
  | c, .flush :: ops => runCollector c.flush ops
  | c, .result :: ops => runCollector (c.to_string).2 ops

/-- Concatenation, in call order, of every string passed to `push` in a
trace. -/
def pushedConcat : List CollectorOp → List Char
  | [] => []
  | .push s :: ops => s ++ pushedConcat ops
  | .flush :: ops => pushedConcat ops
  | .result :: ops => pushedConcat ops

/-! ### Basic facts about the loop -/

/-- A decoder in the DONE state never moves: one cons of input halts with the
state unchanged and no output. -/
theorem loopStep_done {d : ChunkedDecoder} (hs : d.state = DState.done) (c : Char)
    (cs : List Char) : d.loopStep c cs = ([], .halt (.ok d)) := by
  simp [ChunkedDecoder.loopStep, hs]

/-- `decodeLoop` from DONE is a no-op. -/
theorem decodeLoop_done {d : ChunkedDecoder} (hs : d.state = DState.done)
    (rest : List Char) : d.decodeLoop rest = ([], .ok d) := by
  cases rest with
  | nil => exact decodeLoop_nil d
  | cons c cs => rw [decodeLoop_cons, loopStep_done hs]

/-- The early-return DONE check in `decode_chunk` is redundant: the loop
itself treats DONE as halting, so `decode_chunk` and `decodeLoop` agree on
every decoder state. -/
theorem decode_chunk_eq_decodeLoop (d : ChunkedDecoder) (chunk : List Char) :
    d.decode_chunk chunk = d.decodeLoop chunk := by
  unfold ChunkedDecoder.decode_chunk
  split
  · next hs => exact (decodeLoop_done hs chunk).symm
  · rfl

/-! ### Hex accumulation -/

/-- Bit-level fact behind the size accumulator: shifting left by `k` and
or-ing in a value below `2 ^ k` is plain positional arithmetic. -/
theorem shiftLeft_lor_eq_mul_add (k : Nat) :
    ∀ a v : Nat, v < 2 ^ k → (a <<< k) ||| v = a * 2 ^ k + v := by
  induction k with
  | zero =>
    intro a v hv
    have hv0 : v = 0 := by omega
    subst hv0
    simp
  | succ k ih =>
    intro a v hv
    obtain ⟨b, w, hb, hd⟩ : ∃ b w, b ≤ 1 ∧ v = 2 * w + b :=
      ⟨v % 2, v / 2, by omega, by omega⟩
    subst hd
    have hpow : 2 ^ (k + 1) = 2 * 2 ^ k := by ring
    have hw : w < 2 ^ k := by omega
    have ha : a <<< (k + 1) = Nat.bit false (a <<< k) := by
      rw [Nat.shiftLeft_succ]
      simp [Nat.bit_val]
    have hbit : Nat.bit (decide (b = 1)) w = 2 * w + b := by
      have hb2 : b = 0 ∨ b = 1 := by omega
      rcases hb2 with rfl | rfl <;> simp [Nat.bit_val]
    rw [← hbit, ha, Nat.lor_bit, ih a w hw, hpow]
    simp only [Bool.false_or, Nat.bit_val]
    have hb2 : b = 0 ∨ b = 1 := by omega
    rcases hb2 with rfl | rfl <;> simp <;> ring

/-- No character has a hex value of 16 or more. -/
theorem hex_value_lt_16 (c : Char) : hex_value c < 16 := by
  simp only [hex_value]
  split_ifs <;> omega

/-- A hex digit is never the CR delimiter. -/
theorem hex_ne_cr {c : Char} (h : 0 ≤ hex_value c) : c ≠ '\r' := by
  intro hc
  subst hc
  revert h
  decide

/-- On a run of hex digits the accumulator loop succeeds, computing the
most-significant-first base-16 value and recording whether a digit was seen:
`(acc << 4) | v` is exactly `acc * 16 + v`. -/
theorem accumHex_ok (ds : List Char) :
    ∀ (acc : Nat) (any : Bool), (∀ c ∈ ds, 0 ≤ hex_value c) →
      accumHex acc any ds =
        .ok (ds.foldl (fun a c => a * 16 + (hex_value c).toNat) acc,
             if ds.isEmpty then any else true) := by
  induction ds with
  | nil => intro acc any _; simp [accumHex]
  | cons c cs ih =>
    intro acc any h
    have hc : 0 ≤ hex_value c := h c (by simp)
    have hlt : (hex_value c).toNat < 16 := by
      have := hex_value_lt_16 c
      omega
    have hnot : ¬ hex_value c < 0 := by omega
    have hstep : (acc <<< 4) ||| (hex_value c).toNat = acc * 16 + (hex_value c).toNat := by
      have := shiftLeft_lor_eq_mul_add 4 acc (hex_value c).toNat (by omega)
      simpa using this
    simp only [accumHex, hnot, if_false, hstep]
    rw [ih _ true (fun x hx => h x (by simp [hx]))]
    cases cs <;> simp

/-- The accumulator loop raises on the first non-hex character of the run,
regardless of what follows it. -/
theorem accumHex_error (good : List Char) :
    ∀ (acc : Nat) (any : Bool) (c : Char) (t : List Char),
      (∀ x ∈ good, 0 ≤ hex_value x) → hex_value c < 0 →
      accumHex acc any (good ++ c :: t) = .error .invalidSizeHex := by
  induction good with
  | nil =>
    intro acc any c t _ hc
    simp [accumHex, hc]
  | cons g gs ih =>
    intro acc any c t h hc
    have hg : ¬ hex_value g < 0 := by
      have := h g (by simp)
      omega
    simp only [List.cons_append, accumHex, hg, if_false]
    exact ih _ _ _ _ (fun x hx => h x (by simp [hx])) hc

/-- The accumulator loop over a concatenation is the composition of the runs:
the state threads through, and an error in the first run is final. -/
theorem accumHex_append (xs : List Char) :
    ∀ (acc : Nat) (any : Bool) (ys : List Char),
      accumHex acc any (xs ++ ys) =
        match accumHex acc any xs with
        | .error e => .error e
        | .ok av => accumHex av.1 av.2 ys := by
  induction xs with
  | nil => intro acc any ys; simp [accumHex]
  | cons c cs ih =>
    intro acc any ys
    simp only [List.cons_append, accumHex]
    split
    · rfl
    · exact ih _ _ _

/-! ### Single-iteration behaviour on well-formed pieces -/

/-- SIZE state, no pending CR: a run of hex digits followed by CR is consumed
in one iteration, leaving the accumulated value with `_saw_size_cr` set. -/
theorem decodeLoop_digits (acc0 : Nat) (any0 : Bool) (rem idx : Nat) (aft : NextState)
    (av : Nat × Bool) (ds tail : List Char)
    (hds : ∀ c ∈ ds, 0 ≤ hex_value c)
    (hok : accumHex acc0 any0 ds = .ok av) :
    (ChunkedDecoder.mk DState.size false acc0 any0 rem idx aft).decodeLoop
        (ds ++ '\r' :: tail) =
      (ChunkedDecoder.mk DState.size true av.1 av.2 rem idx aft).decodeLoop tail := by
  cases ds with
  | nil =>
    obtain ⟨av1, av2⟩ := av
    simp only [accumHex, Except.ok.injEq, Prod.mk.injEq] at hok
    obtain ⟨h1, h2⟩ := hok
    subst h1 h2
    simp only [List.nil_append]
    rw [decodeLoop_cons]
    simp [ChunkedDecoder.loopStep, List.takeWhile_cons, accumHex]
  | cons c ds' =>
    have hnec : ¬ (c = '\r') := hex_ne_cr (hds c (by simp))
    have hpred' : ∀ a ∈ ds', (fun x => !decide (x = '\r')) a = true := by
      intro a ha
      simp [hex_ne_cr (hds a (by simp [ha]))]
    have htw : List.takeWhile (fun x => !decide (x = '\r')) (ds' ++ '\r' :: tail) = ds' := by
      rw [List.takeWhile_append_of_pos hpred']
      simp [List.takeWhile_cons]
    have hdrop : List.drop ds'.length (ds' ++ '\r' :: tail) = '\r' :: tail :=
      List.drop_left ds' _
    rw [List.cons_append, decodeLoop_cons]
    simp [ChunkedDecoder.loopStep, List.takeWhile_cons, hnec, htw, hdrop, hok]


/-- SIZE state with a pending CR: an LF finalizes the size line.  Size zero
enters EXPECT_CRLF with resume target DONE; a non-zero size enters PAYLOAD
with that many characters remaining. -/
theorem decodeLoop_lf (acc0 : Nat) (any0 : Bool) (rem idx : Nat) (aft : NextState)
    (tail : List Char) :
    (ChunkedDecoder.mk DState.size true acc0 any0 rem idx aft).decodeLoop ('\n' :: tail) =
      if (if any0 then acc0 else 0) = 0 then
        (ChunkedDecoder.mk DState.expectCRLF false 0 false 0 0 NextState.nextDone).decodeLoop
          tail
      else
        (ChunkedDecoder.mk DState.payload false 0 false (if any0 then acc0 else 0) idx
            aft).decodeLoop tail := by
  rw [decodeLoop_cons]
  by_cases h0 : (if any0 then acc0 else 0) = 0
  · simp [ChunkedDecoder.loopStep, ChunkedDecoder.start_expect_crlf, h0]
  · simp [ChunkedDecoder.loopStep, ChunkedDecoder.start_expect_crlf, h0]

/-- PAYLOAD state when the whole remaining payload is available: it is
emitted in a single callback and the decoder enters EXPECT_CRLF with resume
target SIZE. -/
theorem decodeLoop_payload_exact (scr : Bool) (acc0 : Nat) (any0 : Bool) (idx : Nat)
    (aft : NextState) (p tail : List Char) (hp : p ≠ []) :
    (ChunkedDecoder.mk DState.payload scr acc0 any0 p.length idx aft).decodeLoop (p ++ tail) =
      (p :: ((ChunkedDecoder.mk DState.expectCRLF scr acc0 any0 0 0
          NextState.nextSize).decodeLoop tail).1,
        ((ChunkedDecoder.mk DState.expectCRLF scr acc0 any0 0 0
          NextState.nextSize).decodeLoop tail).2) := by
  cases p with
  | nil => exact absurd rfl hp
  | cons q qs =>
    have hlen : (q :: qs).length ≤ (q :: (qs ++ tail)).length := by
      simp [List.length_append]
    have htake : List.take (q :: qs).length (q :: (qs ++ tail)) = q :: qs := by
      have := List.take_left (q :: qs) tail
      simpa using this
    have hdrop : List.drop (q :: qs).length (q :: (qs ++ tail)) = tail := by
      have := List.drop_left (q :: qs) tail
      simpa using this
    rw [List.cons_append, decodeLoop_cons]
    simp [ChunkedDecoder.loopStep, ChunkedDecoder.start_expect_crlf, hlen, htake, hdrop]

/-- EXPECT_CRLF state with cursor at 0 and both delimiter characters
available: both are consumed and the decoder resumes at the remembered
target (halting the call when that target is DONE). -/
theorem decodeLoop_crlf (scr : Bool) (acc0 : Nat) (any0 : Bool) (rem : Nat)
    (aft : NextState) (tail : List Char) :
    (ChunkedDecoder.mk DState.expectCRLF scr acc0 any0 rem 0 aft).decodeLoop
        ('\r' :: '\n' :: tail) =
      if aft = NextState.nextDone then
        ([], .ok (ChunkedDecoder.mk DState.done scr acc0 any0 rem 0 aft))
      else
        (ChunkedDecoder.mk DState.size scr acc0 any0 rem 0 aft).decodeLoop tail := by
  rw [decodeLoop_cons]
  by_cases ha : aft = NextState.nextDone
  · simp [ChunkedDecoder.loopStep, ChunkedDecoder.finish_expect_crlf, ha]
  · cases aft with
    | nextDone => exact absurd rfl ha
    | nextSize => simp [ChunkedDecoder.loopStep, ChunkedDecoder.finish_expect_crlf]


/-- Processing one complete well-formed chunk from the start of a size line:
the payload is emitted in one callback and the decoder returns to the start
state (all transient fields reset). -/
theorem decodeLoop_chunk (rem idx : Nat) (aft : NextState) (ds p tail : List Char)
    (hds : ∀ c ∈ ds, 0 ≤ hex_value c) (hval : hexListVal ds = p.length) (hp : p ≠ []) :
    (ChunkedDecoder.mk DState.size false 0 false rem idx aft).decodeLoop
        (chunkEnc ds p ++ tail) =
      (p :: (ChunkedDecoder.init.decodeLoop tail).1,
        (ChunkedDecoder.init.decodeLoop tail).2) := by
  have hne : ds.isEmpty = false := by
    cases ds with
    | nil =>
      exfalso
      simp [hexListVal] at hval
      exact hp (List.length_eq_zero.mp hval.symm)
    | cons x xs => rfl
  have hok := accumHex_ok ds 0 false hds
  rw [hne] at hok
  have hshape : chunkEnc ds p ++ tail = ds ++ '\r' :: '\n' :: (p ++ '\r' :: '\n' :: tail) := by
    simp [chunkEnc]
  have hfold : ds.foldl (fun a c => a * 16 + (hex_value c).toNat) 0 = p.length := hval
  rw [hshape, decodeLoop_digits 0 false rem idx aft _ ds _ hds hok]
  have hsz : ¬ p.length = 0 := by simpa using hp
  rw [decodeLoop_lf]
  simp only [hfold]
  simp only [show ((false = true) = False) from by simp, if_false, if_true, eq_self_iff_true,
    ite_true, ite_false, if_neg hsz]
  rw [decodeLoop_payload_exact false 0 false idx aft p _ hp]
  rw [decodeLoop_crlf]
  simp [ChunkedDecoder.init]

/-- Processing the terminal chunk `0\r\n\r\n` from the start of a size line:
nothing is emitted and the call returns with the decoder DONE. -/
theorem decodeLoop_terminal (rem idx : Nat) (aft : NextState) :
    (ChunkedDecoder.mk DState.size false 0 false rem idx aft).decodeLoop
        ['0', '\r', '\n', '\r', '\n'] = ([], .ok doneDecoder) := by
  have hds : ∀ c ∈ ['0'], 0 ≤ hex_value c := by decide
  have hok : accumHex 0 false ['0'] = .ok (0, true) := rfl
  have hshape : (['0', '\r', '\n', '\r', '\n'] : List Char) =
      ['0'] ++ '\r' :: ['\n', '\r', '\n'] := rfl
  rw [hshape, decodeLoop_digits 0 false rem idx aft (0, true) ['0'] _ hds hok]
  rw [decodeLoop_lf]
  simp only [if_pos rfl]
  rw [decodeLoop_crlf]
  simp [doneDecoder]

/-- Decoding a full well-formed stream from the initial state yields exactly
the payloads, one callback each, and ends DONE. -/
theorem decodeLoop_encodeStream (chunks : List (List Char × List Char))
    (h : ∀ cp ∈ chunks,
      (∀ c ∈ cp.1, 0 ≤ hex_value c) ∧ hexListVal cp.1 = cp.2.length ∧ cp.2 ≠ []) :
    ChunkedDecoder.init.decodeLoop (encodeStream chunks) =
      (chunks.map Prod.snd, .ok doneDecoder) := by
  induction chunks with
  | nil =>
    show (ChunkedDecoder.mk DState.size false 0 false 0 0 NextState.nextSize).decodeLoop
        (encodeStream []) = ([], .ok doneDecoder)
    exact decodeLoop_terminal 0 0 NextState.nextSize
  | cons cp rest ih =>
    obtain ⟨h1, h2, h3⟩ := h cp (by simp)
    have hrest := ih (fun x hx => h x (by simp [hx]))
    show (ChunkedDecoder.mk DState.size false 0 false 0 0 NextState.nextSize).decodeLoop
        (encodeStream (cp :: rest)) = _
    rw [show encodeStream (cp :: rest) = chunkEnc cp.1 cp.2 ++ encodeStream rest from rfl]
    rw [decodeLoop_chunk 0 0 NextState.nextSize cp.1 cp.2 _ h1 h2 h3]
    rw [hrest]
    simp


/-! ### Claim theorems (first batch) -/

/-- C10: calling `decode` with the empty string, in any decoder state, changes
no decoder state, invokes the output callback zero times, and raises no
error. -/
theorem empty_fragment_noop (d : ChunkedDecoder) : d.decode_chunk [] = ([], .ok d) := by
  rw [decode_chunk_eq_decodeLoop]
  exact decodeLoop_nil d

/-- C5: `finalize` raises `IncompleteStreamError` (the source's
`RuntimeError`) exactly when the decoder is not DONE, and is a no-op
(returning nothing, touching no state) when the decoder is DONE. -/
theorem finalize_iff_not_done (d : ChunkedDecoder) :
    (d.finalize = .error .notFinished ↔ ¬ d.state = DState.done) ∧
    (d.state = DState.done → d.finalize = .ok ()) := by
  unfold ChunkedDecoder.finalize ChunkedDecoder.is_done
  by_cases h : d.state = DState.done <;> simp [h]

theorem finalize_iff_not_done_witness :
    doneDecoder.finalize = .ok () ∧
      ChunkedDecoder.init.finalize = .error .notFinished := by
  constructor
  · exact (finalize_iff_not_done doneDecoder).2 rfl
  · exact (finalize_iff_not_done ChunkedDecoder.init).1.mpr (by decide)

/-- C2: every well-formed stream (hex size line, payload of exactly that
declared size, terminated by `0\r\n\r\n`) decodes, fed as one fragment, to
exactly its payloads with the decoder DONE; in particular
`"5\r\nhello\r\n0\r\n\r\n"` yields `"hello"` and `"0\r\n\r\n"` yields
nothing, both ending DONE. -/
theorem wellformed_roundtrip :
    (∀ chunks : List (List Char × List Char),
        (∀ cp ∈ chunks,
          (∀ c ∈ cp.1, 0 ≤ hex_value c) ∧ hexListVal cp.1 = cp.2.length ∧ cp.2 ≠ []) →
        ChunkedDecoder.init.decode_chunk (encodeStream chunks) =
          (chunks.map Prod.snd, .ok doneDecoder)) ∧
    ChunkedDecoder.init.decode_chunk ("5\r\nhello\r\n0\r\n\r\n".toList) =
      (["hello".toList], .ok doneDecoder) ∧
    ChunkedDecoder.init.decode_chunk ("0\r\n\r\n".toList) = ([], .ok doneDecoder) ∧
    doneDecoder.is_done = true := by
  have hgen : ∀ chunks : List (List Char × List Char),
      (∀ cp ∈ chunks,
        (∀ c ∈ cp.1, 0 ≤ hex_value c) ∧ hexListVal cp.1 = cp.2.length ∧ cp.2 ≠ []) →
      ChunkedDecoder.init.decode_chunk (encodeStream chunks) =
        (chunks.map Prod.snd, .ok doneDecoder) := by
    intro chunks h
    rw [decode_chunk_eq_decodeLoop]
    exact decodeLoop_encodeStream chunks h
  refine ⟨hgen, ?_, ?_, rfl⟩
  · have h := hgen [(['5'], "hello".toList)] (by decide)
    have henc : "5\r\nhello\r\n0\r\n\r\n".toList = encodeStream [(['5'], "hello".toList)] := by
      decide
    rw [henc, h]
    simp
  · have h := hgen [] (by simp)
    have henc : "0\r\n\r\n".toList = encodeStream [] := by decide
    rw [henc, h]
    simp

theorem wellformed_roundtrip_witness :
    ChunkedDecoder.init.decode_chunk (encodeStream [(['5'], "hello".toList)]) =
      ([(['5'], "hello".toList)].map Prod.snd, .ok doneDecoder) :=
  wellformed_roundtrip.1 [(['5'], "hello".toList)] (by decide)

/-- C8: a size line of hex digits (possibly none) ending in CRLF, read from
the start of the SIZE state, finalizes to the base-16 most-significant-first
value of the digits; size zero enters EXPECT_CRLF with resume target DONE and
a non-zero size enters PAYLOAD with that many characters remaining. -/
theorem sizeline_parses_hex (rem idx : Nat) (aft : NextState) (ds rest : List Char)
    (hds : ∀ c ∈ ds, 0 ≤ hex_value c) :
    (ChunkedDecoder.mk DState.size false 0 false rem idx aft).decodeLoop
        (ds ++ '\r' :: '\n' :: rest) =
      if hexListVal ds = 0 then
        (ChunkedDecoder.mk DState.expectCRLF false 0 false 0 0
            NextState.nextDone).decodeLoop rest
      else
        (ChunkedDecoder.mk DState.payload false 0 false (hexListVal ds) idx
            aft).decodeLoop rest := by
  have hok := accumHex_ok ds 0 false hds
  rw [decodeLoop_digits 0 false rem idx aft _ ds _ hds hok]
  rw [decodeLoop_lf]
  cases hE : ds.isEmpty with
  | true =>
    have : ds = [] := List.isEmpty_iff.mp hE
    subst this
    simp [hexListVal]
  | false =>
    have hfold : ds.foldl (fun a c => a * 16 + (hex_value c).toNat) 0 = hexListVal ds := rfl
    simp only [hE, hfold]
    simp

theorem sizeline_parses_hex_witness :
    (ChunkedDecoder.mk DState.size false 0 false 0 0 NextState.nextSize).decodeLoop
        (['5'] ++ '\r' :: '\n' :: []) =
      (ChunkedDecoder.mk DState.payload false 0 false 5 0 NextState.nextSize).decodeLoop [] := by
  have h := sizeline_parses_hex 0 0 NextState.nextSize ['5'] [] (by decide)
  have h5 : hexListVal ['5'] = 5 := by decide
  rw [h5] at h
  simpa using h


/-- Helper for C6: with CR pending in the size line, anything but LF raises. -/
theorem size_cr_requires_lf (d : ChunkedDecoder) (c : Char) (t : List Char)
    (hs : d.state = DState.size) (hcr : d.saw_size_cr = true) (hc : c ≠ '\n') :
    d.decodeLoop (c :: t) = ([], .error .expectedLFAfterCR) := by
  rw [decodeLoop_cons]
  simp [ChunkedDecoder.loopStep, hs, hcr, hc]

/-- Helper for C6: in the SIZE state (no CR pending), the first character that
is neither a hex digit nor CR raises, whatever follows it. -/
theorem size_bad_digit (d : ChunkedDecoder) (good : List Char) (c : Char) (t : List Char)
    (hs : d.state = DState.size) (hcr : d.saw_size_cr = false)
    (hgood : ∀ x ∈ good, 0 ≤ hex_value x) (hc : hex_value c < 0) (hne : c ≠ '\r') :
    d.decodeLoop (good ++ c :: t) = ([], .error .invalidSizeHex) := by
  have hcne : (fun x => !decide (x = '\r')) c = true := by simp [hne]
  cases good with
  | nil =>
    rw [List.nil_append, decodeLoop_cons]
    have herr : accumHex d.size_acc d.size_any
        (c :: List.takeWhile (fun x => !decide (x = '\r')) t) = .error .invalidSizeHex := by
      have := accumHex_error [] d.size_acc d.size_any c
        (List.takeWhile (fun x => !decide (x = '\r')) t) (by simp) hc
      simpa using this
    simp [ChunkedDecoder.loopStep, hs, hcr, List.takeWhile_cons, hcne, herr]
  | cons g gs =>
    have hgne : (fun x => !decide (x = '\r')) g = true := by
      simp [hex_ne_cr (hgood g (by simp))]
    have hpred : ∀ a ∈ gs, (fun x => !decide (x = '\r')) a = true := by
      intro a ha
      simp [hex_ne_cr (hgood a (by simp [ha]))]
    have htw : List.takeWhile (fun x => !decide (x = '\r')) (gs ++ c :: t) =
        gs ++ c :: List.takeWhile (fun x => !decide (x = '\r')) t := by
      rw [List.takeWhile_append_of_pos hpred]
      simp [List.takeWhile_cons, hcne]
    have herr : accumHex d.size_acc d.size_any
        (g :: (gs ++ c :: List.takeWhile (fun x => !decide (x = '\r')) t)) =
          .error .invalidSizeHex := by
      have := accumHex_error (g :: gs) d.size_acc d.size_any c
        (List.takeWhile (fun x => !decide (x = '\r')) t) hgood hc
      simpa using this
    rw [List.cons_append, decodeLoop_cons]
    simp [ChunkedDecoder.loopStep, hs, hcr, List.takeWhile_cons, hgne, htw, herr]

/-- C6: in the SIZE state the first character that is neither a hex digit nor
CR raises the size-line error (`invalidSizeHex`, the source's "Invalid chunk
size line (expected hex digits)"), and after the size line's CR anything but
LF raises the size-line error (`expectedLFAfterCR`, "expected LF after CR in
size line"); both are the spec's `MalformedSizeLineError`.  In particular
feeding `"5g\r\n"` fails this way. -/
theorem malformed_sizeline :
    (∀ (d : ChunkedDecoder) (good : List Char) (c : Char) (t : List Char),
        d.state = DState.size → d.saw_size_cr = false →
        (∀ x ∈ good, 0 ≤ hex_value x) → hex_value c < 0 → c ≠ '\r' →
        d.decodeLoop (good ++ c :: t) = ([], .error .invalidSizeHex)) ∧
    (∀ (d : ChunkedDecoder) (c : Char) (t : List Char),
        d.state = DState.size → d.saw_size_cr = true → c ≠ '\n' →
        d.decodeLoop (c :: t) = ([], .error .expectedLFAfterCR)) ∧
    ChunkedDecoder.init.decode_chunk ("5g\r\n".toList) = ([], .error .invalidSizeHex) := by
  refine ⟨size_bad_digit, size_cr_requires_lf, ?_⟩
  rw [decode_chunk_eq_decodeLoop,
    show "5g\r\n".toList = ['5'] ++ 'g' :: ['\r', '\n'] from rfl]
  exact size_bad_digit ChunkedDecoder.init ['5'] 'g' ['\r', '\n'] rfl rfl
    (by decide) (by decide) (by decide)

theorem malformed_sizeline_witness :
    ChunkedDecoder.init.decodeLoop (['5'] ++ 'g' :: ['\r', '\n']) =
      ([], .error .invalidSizeHex) :=
  malformed_sizeline.1 ChunkedDecoder.init ['5'] 'g' ['\r', '\n'] rfl rfl
    (by decide) (by decide) (by decide)

/-- C7: in the EXPECT_CRLF state with the cursor on the first delimiter
character, anything but CR raises `expectedCRLF` (the spec's
`MalformedDelimiterError`); with the cursor on the second, anything but LF
raises likewise; and both delimiter characters in order are accepted,
resuming at the remembered target.  In particular `"5\r\nhello\r\r"` fails
with the delimiter error after emitting the payload. -/
theorem delimiter_strictness :
    (∀ (d : ChunkedDecoder) (c : Char) (t : List Char),
        d.state = DState.expectCRLF → d.expect_index = 0 → c ≠ '\r' →
        d.decodeLoop (c :: t) = ([], .error .expectedCRLF)) ∧
    (∀ (d : ChunkedDecoder) (c : Char) (t : List Char),
        d.state = DState.expectCRLF → d.expect_index = 1 → c ≠ '\n' →
        d.decodeLoop (c :: t) = ([], .error .expectedCRLF)) ∧
    ChunkedDecoder.init.decode_chunk ("5\r\nhello\r\r".toList) =
      (["hello".toList], .error .expectedCRLF) := by
  refine ⟨?_, ?_, ?_⟩
  · intro d c t hs hidx hc
    rw [decodeLoop_cons]
    simp [ChunkedDecoder.loopStep, hs, hidx, hc, ChunkedDecoder.expectStep]
  · intro d c t hs hidx hc
    rw [decodeLoop_cons]
    simp [ChunkedDecoder.loopStep, hs, hidx, hc, ChunkedDecoder.expectStep]
  · rw [decode_chunk_eq_decodeLoop,
      show "5\r\nhello\r\r".toList = ['5'] ++ '\r' :: '\n' :: ("hello".toList ++ ['\r', '\r'])
        from rfl]
    have h := sizeline_parses_hex 0 0 NextState.nextSize ['5']
      ("hello".toList ++ ['\r', '\r']) (by decide)
    have h5 : hexListVal ['5'] = 5 := by decide
    rw [show ChunkedDecoder.init =
      ChunkedDecoder.mk DState.size false 0 false 0 0 NextState.nextSize from rfl, h, h5]
    rw [if_neg (by decide)]
    have hp := decodeLoop_payload_exact false 0 false 0 NextState.nextSize
      ("hello".toList) ['\r', '\r'] (by decide)
    rw [show (5 : Nat) = ("hello".toList).length from rfl, hp]
    rw [decodeLoop_cons]
    simp [ChunkedDecoder.loopStep, ChunkedDecoder.expectStep]
    rw [decodeLoop_cons]
    simp [ChunkedDecoder.loopStep, ChunkedDecoder.expectStep]


theorem delimiter_strictness_witness :
    (ChunkedDecoder.mk DState.expectCRLF false 0 false 0 0 NextState.nextSize).decodeLoop
        ['x'] = ([], .error .expectedCRLF) :=
  delimiter_strictness.1 (ChunkedDecoder.mk DState.expectCRLF false 0 false 0 0
    NextState.nextSize) 'x' [] rfl rfl (by decide)

/-! ### Collector -/

/-- The full accumulated output of a collector: sealed blocks then pending
fragments, in order. -/
def collectorTotal (c : BlockCollector) : List Char :=
  c.blocks.flatten ++ c.pending.flatten

theorem collectorTotal_flush (c : BlockCollector) :
    collectorTotal c.flush = collectorTotal c := by
  unfold BlockCollector.flush collectorTotal
  split
  · rfl
  · simp

theorem collectorTotal_push (c : BlockCollector) (s : List Char) :
    collectorTotal (c.push s) = collectorTotal c ++ s := by
  unfold BlockCollector.push
  split
  · simp [collectorTotal, *]
  · dsimp only
    split
    · rw [collectorTotal_flush]
      simp [collectorTotal]
    · simp [collectorTotal]

theorem to_string_fst (c : BlockCollector) : (c.to_string).1 = collectorTotal c := by
  unfold BlockCollector.to_string collectorTotal
  by_cases hb : c.blocks = []
  · simp only [hb, if_pos rfl]
    by_cases hp : c.pending = []
    · simp [hb, hp]
    · cases hl : c.pending with
      | nil => exact absurd hl hp
      | cons x xs =>
        cases xs with
        | nil => simp [hb, hp, hl]
        | cons y ys => simp [hb, hp, hl]
  · rw [if_neg hb]
    have hflush := collectorTotal_flush c
    have hpend : (c.flush).pending = [] := by
      unfold BlockCollector.flush
      split
      · simp_all
      · rfl
    have hbne : (c.flush).blocks ≠ [] := by
      unfold BlockCollector.flush
      split
      · exact hb
      · simp
    unfold collectorTotal at hflush
    rw [hpend] at hflush
    simp only [List.flatten_nil, List.append_nil] at hflush
    rw [← hflush]
    cases hl : (c.flush).blocks with
    | nil => exact absurd hl hbne
    | cons x xs =>
      cases xs with
      | nil => simp [hl]
      | cons y ys => simp [hl]

theorem to_string_snd (c : BlockCollector) :
    collectorTotal (c.to_string).2 = collectorTotal c := by
  unfold BlockCollector.to_string
  by_cases hb : c.blocks = []
  · by_cases hp : c.pending = [] <;> by_cases h1 : c.pending.length = 1 <;>
      simp [hb, hp, h1]
  · by_cases h1 : (c.flush).blocks.length = 1 <;>
      simp [hb, h1, collectorTotal_flush]

theorem runCollector_total (ops : List CollectorOp) :
    ∀ c : BlockCollector, collectorTotal (runCollector c ops) =
      collectorTotal c ++ pushedConcat ops := by
  induction ops with
  | nil => intro c; simp [runCollector, pushedConcat]
  | cons op rest ih =>
    intro c
    cases op with
    | push s =>
      simp only [runCollector, pushedConcat, ih, collectorTotal_push, List.append_assoc]
    | flush =>
      simp only [runCollector, pushedConcat, ih, collectorTotal_flush]
    | result =>
      simp only [runCollector, pushedConcat, ih, to_string_snd]

/-- C3: after any sequence of `push`, `flush` and `result` calls on a fresh
collector (any thresholds), `result` returns exactly the concatenation, in
call order, of every string ever passed to `push`. -/
theorem collector_result_concat (mc mp : Nat) (ops : List CollectorOp) :
    ((runCollector (BlockCollector.init mc mp) ops).to_string).1 = pushedConcat ops := by
  rw [to_string_fst, runCollector_total]
  simp [BlockCollector.init, collectorTotal]


/-! ### Callback output discipline -/

/-- The slices one loop iteration emits are non-empty contiguous slices of
the unconsumed input. -/
theorem loopStep_out {d : ChunkedDecoder} {c : Char} {cs : List Char}
    {o : List (List Char)} {s : StepOut} (h : d.loopStep c cs = (o, s)) :
    ∀ x ∈ o, x ≠ [] ∧ x <:+: (c :: cs) := by
  obtain ⟨st, scr, acc, any, rem, idx, aft⟩ := d
  cases st
  all_goals simp only [ChunkedDecoder.loopStep] at h
  all_goals repeat' split at h
  all_goals simp only [Prod.mk.injEq] at h
  all_goals obtain ⟨ho, -⟩ := h
  all_goals subst ho
  all_goals intro x hx
  all_goals simp only [List.mem_singleton, List.not_mem_nil] at hx
  all_goals try exact absurd hx (by simp)
  all_goals subst hx
  · constructor
    · rename_i hrem _
      intro hnil
      have := congrArg List.length hnil
      simp at this
      omega
    · exact ⟨[], (c :: cs).drop rem, by simp⟩
  · exact ⟨by simp, List.infix_refl _⟩

/-- The unconsumed suffix a continuing loop iteration passes on is a suffix
of its input. -/
theorem loopStep_next_suffix {d : ChunkedDecoder} {c : Char} {cs : List Char}
    {o : List (List Char)} {d' : ChunkedDecoder} {rest' : List Char}
    (h : d.loopStep c cs = (o, .next d' rest')) : rest' <:+ (c :: cs) := by
  obtain ⟨st, scr, acc, any, rem, idx, aft⟩ := d
  cases st
  all_goals simp only [ChunkedDecoder.loopStep] at h
  all_goals repeat' split at h
  all_goals simp only [Prod.mk.injEq, StepOut.next.injEq] at h
  all_goals obtain ⟨-, -, hr⟩ := h
  all_goals subst hr
  all_goals
    first
      | exact List.suffix_cons c cs
      | exact List.drop_suffix rem (c :: cs)
      | (rename_i heq
         exact List.IsSuffix.trans (List.suffix_cons _ _) (heq ▸ List.drop_suffix _ _))
      | (have h2 : cs.tail = List.drop 2 (c :: cs) := by cases cs <;> simp
         rw [h2]
         exact List.drop_suffix 2 (c :: cs))

/-- Every slice `decodeLoop` emits is a non-empty contiguous slice of the
fragment it was fed. -/
theorem decodeLoop_out (d : ChunkedDecoder) (rest : List Char) :
    ∀ x ∈ (d.decodeLoop rest).1, x ≠ [] ∧ x <:+: rest := by
  induction d, rest using ChunkedDecoder.decodeLoop.induct with
  | case1 d => simp [decodeLoop_nil]
  | case2 d c cs o r hstep =>
    rw [decodeLoop_cons, hstep]
    exact fun x hx => loopStep_out hstep x hx
  | case3 d c cs o d' rest' hstep ih =>
    rw [decodeLoop_cons, hstep]
    intro x hx
    simp only [List.mem_append] at hx
    rcases hx with hx | hx
    · exact loopStep_out hstep x hx
    · obtain ⟨h1, h2⟩ := ih x hx
      refine ⟨h1, List.IsInfix.trans h2 ?_⟩
      exact List.IsSuffix.isInfix (loopStep_next_suffix hstep)

/-- C9: every callback invocation receives a non-empty contiguous slice of
the input fragment, and on a well-formed stream the slices delivered are
exactly the chunk payloads — no size-line character and no delimiter CR/LF
is ever passed to the callback. -/
theorem callback_discipline :
    (∀ (d : ChunkedDecoder) (chunk : List Char), ∀ x ∈ (d.decode_chunk chunk).1,
        x ≠ [] ∧ x <:+: chunk) ∧
    (∀ chunks : List (List Char × List Char),
        (∀ cp ∈ chunks,
          (∀ c ∈ cp.1, 0 ≤ hex_value c) ∧ hexListVal cp.1 = cp.2.length ∧ cp.2 ≠ []) →
        (ChunkedDecoder.init.decode_chunk (encodeStream chunks)).1 = chunks.map Prod.snd) := by
  constructor
  · intro d chunk
    rw [decode_chunk_eq_decodeLoop]
    exact decodeLoop_out d chunk
  · intro chunks h
    rw [decode_chunk_eq_decodeLoop, decodeLoop_encodeStream chunks h]

theorem callback_discipline_witness :
    (ChunkedDecoder.init.decode_chunk (encodeStream [(['5'], "hello".toList)])).1 =
      [(['5'], "hello".toList)].map Prod.snd :=
  callback_discipline.2 [(['5'], "hello".toList)] (by decide)


/-! ### Fragmentation invariance -/

/-- Observable outcome of a decode call: the concatenation of all callback
slices, plus the result (final state or error). -/
def obsOut (x : List (List Char) × Except DecodeError ChunkedDecoder) :
    List Char × Except DecodeError ChunkedDecoder :=
  (x.1.flatten, x.2)

theorem obsOut_mk (o : List (List Char)) (r : Except DecodeError ChunkedDecoder) :
    obsOut (o, r) = (o.flatten, r) := rfl

/-- Observable outcome of feeding fragment `a` and then fragment `b`. -/
def seqObs (d : ChunkedDecoder) (a b : List Char) :
    List Char × Except DecodeError ChunkedDecoder :=
  match d.decodeLoop a with
  | (o, .error e) => (o.flatten, .error e)
  | (o, .ok d1) => (o.flatten ++ (d1.decodeLoop b).1.flatten, (d1.decodeLoop b).2)

/-- When the first loop iteration takes the same continuing step on `a` and on
`a ++ b` (same outputs, same decoder, the unconsumed suffix merely extended
by `b`), composing reduces to the induction hypothesis. -/
theorem seqObs_of_steps {d : ChunkedDecoder} {c : Char} {as b : List Char}
    {o : List (List Char)} {d3 : ChunkedDecoder} {r3 : List Char}
    (hA : d.loopStep c as = (o, .next d3 r3))
    (hAB : d.loopStep c (as ++ b) = (o, .next d3 (r3 ++ b)))
    (hIH : obsOut (d3.decodeLoop (r3 ++ b)) = seqObs d3 r3 b) :
    obsOut (d.decodeLoop (c :: (as ++ b))) = seqObs d (c :: as) b := by
  rw [decodeLoop_cons, hAB]
  unfold seqObs
  rw [decodeLoop_cons, hA]
  rcases hY : d3.decodeLoop r3 with ⟨oY, rY⟩
  unfold seqObs at hIH
  rw [hY] at hIH
  rcases hX : d3.decodeLoop (r3 ++ b) with ⟨oX, rX⟩
  rw [hX] at hIH
  have h1 := congrArg Prod.fst hIH
  have h2 := congrArg Prod.snd hIH
  dsimp only
  rw [hX, hY]
  cases rY with
  | error e =>
    simp only [obsOut] at h1 h2
    simp [obsOut, h1, h2]
  | ok d4 =>
    simp only [obsOut] at h1 h2
    simp [obsOut, h1, h2, List.append_assoc]

/-- When the first loop iteration halts identically on `a` and on `a ++ b`
with a DONE decoder, the extra input is ignored by the second call. -/
theorem seqObs_of_halt_done {d : ChunkedDecoder} {c : Char} {as b : List Char}
    {o : List (List Char)} {d4 : ChunkedDecoder}
    (hA : d.loopStep c as = (o, .halt (.ok d4)))
    (hAB : d.loopStep c (as ++ b) = (o, .halt (.ok d4)))
    (hdone : d4.state = DState.done) :
    obsOut (d.decodeLoop (c :: (as ++ b))) = seqObs d (c :: as) b := by
  rw [decodeLoop_cons, hAB]
  unfold seqObs
  rw [decodeLoop_cons, hA]
  simp [obsOut_mk, decodeLoop_done hdone]

/-- When the first loop iteration halts with the same error on `a` and on
`a ++ b`, both sides observe that error. -/
theorem seqObs_of_halt_error {d : ChunkedDecoder} {c : Char} {as b : List Char}
    {o : List (List Char)} {e : DecodeError}
    (hA : d.loopStep c as = (o, .halt (.error e)))
    (hAB : d.loopStep c (as ++ b) = (o, .halt (.error e))) :
    obsOut (d.decodeLoop (c :: (as ++ b))) = seqObs d (c :: as) b := by
  rw [decodeLoop_cons, hAB]
  unfold seqObs
  rw [decodeLoop_cons, hA]
  simp [obsOut_mk]


theorem seqObs_nil (d : ChunkedDecoder) (b : List Char) :
    seqObs d [] b = obsOut (d.decodeLoop b) := by
  unfold seqObs
  rw [decodeLoop_nil]
  rcases h : d.decodeLoop b with ⟨o, r⟩
  simp [obsOut, h]

theorem seqObs_nil_right (d : ChunkedDecoder) (a : List Char) :
    seqObs d a [] = obsOut (d.decodeLoop a) := by
  unfold seqObs
  rcases h : d.decodeLoop a with ⟨o, r⟩
  cases r with
  | error e => simp [obsOut]
  | ok d1 => simp [obsOut, decodeLoop_nil]

/-- Splitting a fragment in the middle of a digits run is invisible: reading
a full run of non-CR hex digits and stopping (fragment exhausted, accumulator
saved) then continuing on `b` equals reading them as a prefix of `b`'s
iteration. -/
theorem decodeLoop_digits_extend (acc : Nat) (any : Bool) (rem idx : Nat) (aft : NextState)
    (av : Nat × Bool) (A b : List Char) (hne : A ≠ [])
    (hall : ∀ x ∈ A, (fun x => !decide (x = '\r')) x = true)
    (hacc : accumHex acc any A = .ok av) :
    (ChunkedDecoder.mk DState.size false acc any rem idx aft).decodeLoop (A ++ b) =
      (ChunkedDecoder.mk DState.size false av.1 av.2 rem idx aft).decodeLoop b := by
  obtain ⟨c, as, rfl⟩ := List.exists_cons_of_ne_nil hne
  have htwA : (c :: as).takeWhile (fun x => !decide (x = '\r')) = c :: as :=
    List.takeWhile_eq_self_iff.mpr hall
  cases b with
  | nil =>
    rw [List.append_nil, decodeLoop_cons, decodeLoop_nil]
    simp [ChunkedDecoder.loopStep, htwA, hacc]
  | cons c2 bs =>
    have htwAB : (c :: (as ++ c2 :: bs)).takeWhile (fun x => !decide (x = '\r')) =
        (c :: as) ++ (c2 :: bs).takeWhile (fun x => !decide (x = '\r')) := by
      have := @List.takeWhile_append_of_pos _ (fun x => !decide (x = '\r')) (c :: as) (c2 :: bs) hall
      simpa using this
    have haccAB : accumHex acc any
        ((c :: as) ++ (c2 :: bs).takeWhile (fun x => !decide (x = '\r'))) =
        accumHex av.1 av.2 ((c2 :: bs).takeWhile (fun x => !decide (x = '\r'))) := by
      rw [accumHex_append, hacc]
    have hdropAB : List.drop ((c :: as) ++
          (c2 :: bs).takeWhile (fun x => !decide (x = '\r'))).length
          ((c :: as) ++ c2 :: bs) =
        List.drop ((c2 :: bs).takeWhile (fun x => !decide (x = '\r'))).length (c2 :: bs) := by
      rw [List.length_append, ← List.drop_drop, List.drop_left]
    simp only [List.cons_append] at haccAB hdropAB
    simp only [List.length_cons, List.length_append] at hdropAB
    rw [List.cons_append, decodeLoop_cons, decodeLoop_cons]
    cases hacc2 : accumHex av.1 av.2
        ((c2 :: bs).takeWhile (fun x => !decide (x = '\r'))) with
    | error e => simp [ChunkedDecoder.loopStep, htwAB, haccAB, hacc2]
    | ok av2 =>
      cases hdrop2 : List.drop
          ((c2 :: bs).takeWhile (fun x => !decide (x = '\r'))).length (c2 :: bs) with
      | nil => simp [ChunkedDecoder.loopStep, htwAB, haccAB, hacc2, hdropAB, hdrop2]
      | cons x cs2 => simp [ChunkedDecoder.loopStep, htwAB, haccAB, hacc2, hdropAB, hdrop2]


theorem decodeLoop_append_aux :
    ∀ (n : Nat) (d : ChunkedDecoder) (a b : List Char),
      2 * a.length + stateRank d.state ≤ n →
      obsOut (d.decodeLoop (a ++ b)) = seqObs d a b := by
  intro n
  induction n with
  | zero =>
    intro d a b hle
    cases a with
    | nil => rw [seqObs_nil, List.nil_append]
    | cons c as => simp only [List.length_cons] at hle; omega
  | succ n ih =>
    intro d a b hle
    cases a with
    | nil => rw [seqObs_nil, List.nil_append]
    | cons c as =>
      by_cases hb : b = []
      · subst hb
        rw [List.append_nil, seqObs_nil_right]
      · rw [List.cons_append]
        obtain ⟨st, scr, acc, any, rem, idx, aft⟩ := d
        simp only [List.length_cons] at hle
        cases st with
        | done =>
          exact seqObs_of_halt_done rfl rfl rfl
        | size =>
          cases scr with
          | true =>
            by_cases hc : c = '\n'
            · subst hc
              by_cases hz : (if any = true then acc else 0) = 0
              · have hA : (ChunkedDecoder.mk DState.size true acc any rem idx aft).loopStep
                    '\n' as = ([], .next (ChunkedDecoder.mk DState.expectCRLF false 0 false 0 0
                      NextState.nextDone) as) := by
                  simp [ChunkedDecoder.loopStep, hz, ChunkedDecoder.start_expect_crlf]
                have hAB : (ChunkedDecoder.mk DState.size true acc any rem idx aft).loopStep
                    '\n' (as ++ b) = ([], .next (ChunkedDecoder.mk DState.expectCRLF false 0
                      false 0 0 NextState.nextDone) (as ++ b)) := by
                  simp [ChunkedDecoder.loopStep, hz, ChunkedDecoder.start_expect_crlf]
                exact seqObs_of_steps hA hAB (ih _ as b (by simp only [stateRank]; omega))
              · have hA : (ChunkedDecoder.mk DState.size true acc any rem idx aft).loopStep
                    '\n' as = ([], .next (ChunkedDecoder.mk DState.payload false 0 false
                      (if any = true then acc else 0) idx aft) as) := by
                  simp [ChunkedDecoder.loopStep, hz]
                have hAB : (ChunkedDecoder.mk DState.size true acc any rem idx aft).loopStep
                    '\n' (as ++ b) = ([], .next (ChunkedDecoder.mk DState.payload false 0 false
                      (if any = true then acc else 0) idx aft) (as ++ b)) := by
                  simp [ChunkedDecoder.loopStep, hz]
                exact seqObs_of_steps hA hAB (ih _ as b (by simp only [stateRank]; omega))
            · have hA : (ChunkedDecoder.mk DState.size true acc any rem idx aft).loopStep
                  c as = ([], .halt (.error .expectedLFAfterCR)) := by
                simp [ChunkedDecoder.loopStep, hc]
              have hAB : (ChunkedDecoder.mk DState.size true acc any rem idx aft).loopStep
                  c (as ++ b) = ([], .halt (.error .expectedLFAfterCR)) := by
                simp [ChunkedDecoder.loopStep, hc]
              exact seqObs_of_halt_error hA hAB
          | false =>
            cases hdr : (c :: as).dropWhile (fun x => !decide (x = '\r')) with
            | nil =>
              have hda : (c :: as).takeWhile (fun x => !decide (x = '\r')) = c :: as := by
                have h0 := List.takeWhile_append_dropWhile
                  (fun x => !decide (x = '\r')) (c :: as)
                rw [hdr, List.append_nil] at h0
                exact h0
              have hall := List.takeWhile_eq_self_iff.mp hda
              cases hacc : accumHex acc any (c :: as) with
              | error e =>
                have htwAB : (c :: (as ++ b)).takeWhile (fun x => !decide (x = '\r')) =
                    c :: (as ++ b.takeWhile (fun x => !decide (x = '\r'))) := by
                  have h0 := @List.takeWhile_append_of_pos _ (fun x => !decide (x = '\r')) (c :: as) b hall
                  simpa using h0
                have haccAB : accumHex acc any
                    (c :: (as ++ b.takeWhile (fun x => !decide (x = '\r')))) = .error e := by
                  have h0 : accumHex acc any
                      ((c :: as) ++ b.takeWhile (fun x => !decide (x = '\r'))) = .error e := by
                    rw [accumHex_append, hacc]
                  simpa using h0
                have hA : (ChunkedDecoder.mk DState.size false acc any rem idx aft).loopStep
                    c as = ([], .halt (.error e)) := by
                  simp [ChunkedDecoder.loopStep, hda, hacc]
                have hAB : (ChunkedDecoder.mk DState.size false acc any rem idx aft).loopStep
                    c (as ++ b) = ([], .halt (.error e)) := by
                  simp [ChunkedDecoder.loopStep, htwAB, haccAB]
                exact seqObs_of_halt_error hA hAB
              | ok av =>
                have hA : (ChunkedDecoder.mk DState.size false acc any rem idx aft).loopStep
                    c as = ([], .halt (.ok (ChunkedDecoder.mk DState.size false av.1 av.2
                      rem idx aft))) := by
                  simp [ChunkedDecoder.loopStep, hda, hacc]
                have hext := decodeLoop_digits_extend acc any rem idx aft av (c :: as) b
                  (by simp) hall hacc
                have hgoal : obsOut ((ChunkedDecoder.mk DState.size false acc any rem idx
                    aft).decodeLoop (c :: (as ++ b))) =
                    obsOut ((ChunkedDecoder.mk DState.size false av.1 av.2 rem idx
                      aft).decodeLoop b) := by
                  rw [← List.cons_append, hext]
                rw [hgoal]
                unfold seqObs
                rw [decodeLoop_cons, hA]
                rcases hY : (ChunkedDecoder.mk DState.size false av.1 av.2 rem idx
                  aft).decodeLoop b with ⟨oY, rY⟩
                dsimp only
                cases rY <;> simp [obsOut, hY]
            | cons r as2 =>
              have hrr : r = '\r' := by
                have h0 := List.head?_dropWhile_not (fun x => !decide (x = '\r')) (c :: as)
                rw [hdr] at h0
                simp at h0
                exact h0
              subst hrr
              have hsplit : c :: as =
                  ((c :: as).takeWhile (fun x => !decide (x = '\r'))) ++ '\r' :: as2 := by
                conv_lhs => rw [← List.takeWhile_append_dropWhile
                  (fun x => !decide (x = '\r')) (c :: as)]
                rw [hdr]
              have hallda : ∀ x ∈ (c :: as).takeWhile (fun x => !decide (x = '\r')),
                  (fun x => !decide (x = '\r')) x = true := by
                intro x hx
                exact @List.mem_takeWhile_imp _ (fun x => !decide (x = '\r')) (c :: as) x hx
              have hlen2 : as2.length ≤ as.length := by
                have h0 := congrArg List.length hsplit
                simp [List.length_append] at h0
                omega
              have h1 : c :: (as ++ b) =
                  ((c :: as).takeWhile (fun x => !decide (x = '\r'))) ++
                    ('\r' :: (as2 ++ b)) := by
                have h2 : c :: (as ++ b) = (c :: as) ++ b := by rw [List.cons_append]
                rw [h2]
                conv_lhs => rw [hsplit]
                simp [List.append_assoc]
              have htwAB : (c :: (as ++ b)).takeWhile (fun x => !decide (x = '\r')) =
                  (c :: as).takeWhile (fun x => !decide (x = '\r')) := by
                rw [h1, List.takeWhile_append_of_pos hallda]
                simp
              have hdropA : List.drop
                  ((c :: as).takeWhile (fun x => !decide (x = '\r'))).length (c :: as) =
                  '\r' :: as2 := by
                generalize hg : (c :: as).takeWhile (fun x => !decide (x = '\r')) = da
                rw [hg] at hsplit
                conv_lhs => rw [hsplit]
                exact List.drop_left da _
              have hdropAB : List.drop
                  ((c :: as).takeWhile (fun x => !decide (x = '\r'))).length
                  (c :: (as ++ b)) = '\r' :: (as2 ++ b) := by
                generalize hg : (c :: as).takeWhile (fun x => !decide (x = '\r')) = da
                rw [hg] at h1
                rw [h1]
                exact List.drop_left da _
              cases hacc : accumHex acc any
                  ((c :: as).takeWhile (fun x => !decide (x = '\r'))) with
              | error e =>
                have hA : (ChunkedDecoder.mk DState.size false acc any rem idx aft).loopStep
                    c as = ([], .halt (.error e)) := by
                  simp [ChunkedDecoder.loopStep, hacc]
                have hAB : (ChunkedDecoder.mk DState.size false acc any rem idx aft).loopStep
                    c (as ++ b) = ([], .halt (.error e)) := by
                  simp [ChunkedDecoder.loopStep, htwAB, hacc]
                exact seqObs_of_halt_error hA hAB
              | ok av =>
                have hA : (ChunkedDecoder.mk DState.size false acc any rem idx aft).loopStep
                    c as = ([], .next (ChunkedDecoder.mk DState.size true av.1 av.2 rem idx
                      aft) as2) := by
                  simp [ChunkedDecoder.loopStep, hacc, hdropA]
                have hAB : (ChunkedDecoder.mk DState.size false acc any rem idx aft).loopStep
                    c (as ++ b) = ([], .next (ChunkedDecoder.mk DState.size true av.1 av.2
                      rem idx aft) (as2 ++ b)) := by
                  simp [ChunkedDecoder.loopStep, htwAB, hacc, hdropAB]
                refine seqObs_of_steps hA hAB (ih _ as2 b ?_)
                simp only [stateRank]
                omega
        | payload =>
          simp only [stateRank] at hle
          by_cases h0 : rem = 0
          · subst h0
            have hA : (ChunkedDecoder.mk DState.payload scr acc any 0 idx aft).loopStep
                c as = ([], .next (ChunkedDecoder.mk DState.expectCRLF scr acc any 0 0
                  NextState.nextSize) (c :: as)) := by
              simp [ChunkedDecoder.loopStep, ChunkedDecoder.start_expect_crlf]
            have hAB : (ChunkedDecoder.mk DState.payload scr acc any 0 idx aft).loopStep
                c (as ++ b) = ([], .next (ChunkedDecoder.mk DState.expectCRLF scr acc any 0 0
                  NextState.nextSize) ((c :: as) ++ b)) := by
              simp [ChunkedDecoder.loopStep, ChunkedDecoder.start_expect_crlf]
            refine seqObs_of_steps hA hAB (ih _ (c :: as) b ?_)
            simp only [stateRank, List.length_cons]
            omega
          · by_cases h1 : rem ≤ as.length + 1
            · have htake : (c :: (as ++ b)).take rem = (c :: as).take rem := by
                have h2 := @List.take_append_of_le_length _ (c :: as) b rem (by simpa using h1)
                simpa using h2
              have hdropX : (c :: (as ++ b)).drop rem = (c :: as).drop rem ++ b := by
                have h2 := @List.drop_append_of_le_length _ (c :: as) b rem (by simpa using h1)
                simpa using h2
              have hA : (ChunkedDecoder.mk DState.payload scr acc any rem idx aft).loopStep
                  c as = ([(c :: as).take rem], .next (ChunkedDecoder.mk DState.expectCRLF
                    scr acc any 0 0 NextState.nextSize) ((c :: as).drop rem)) := by
                simp [ChunkedDecoder.loopStep, ChunkedDecoder.start_expect_crlf, h0, h1]
              have hAB : (ChunkedDecoder.mk DState.payload scr acc any rem idx aft).loopStep
                  c (as ++ b) = ([(c :: as).take rem], .next (ChunkedDecoder.mk
                    DState.expectCRLF scr acc any 0 0 NextState.nextSize)
                    ((c :: as).drop rem ++ b)) := by
                have h3 : rem ≤ (c :: (as ++ b)).length := by
                  simp [List.length_append]
                  omega
                simp at h3
                simp [ChunkedDecoder.loopStep, ChunkedDecoder.start_expect_crlf, h0, h3,
                  htake, hdropX]
              refine seqObs_of_steps hA hAB (ih _ ((c :: as).drop rem) b ?_)
              simp only [stateRank, List.length_drop, List.length_cons]
              omega
            · obtain ⟨c2, bs, rfl⟩ := List.exists_cons_of_ne_nil hb
              by_cases h2 : rem ≤ as.length + 1 + (bs.length + 1)
              · -- the payload run crosses the fragment boundary
                have hrem1 : (c :: as).length ≤ rem := by simp; omega
                have htake : (c :: (as ++ c2 :: bs)).take rem =
                    (c :: as) ++ (c2 :: bs).take (rem - (as.length + 1)) := by
                  have h3 := @List.take_append_eq_append_take _ (c :: as) (c2 :: bs) rem
                  rw [List.take_of_length_le hrem1] at h3
                  simpa using h3
                have hdropX : (c :: (as ++ c2 :: bs)).drop rem =
                    (c2 :: bs).drop (rem - (as.length + 1)) := by
                  have h3 := @List.drop_append_eq_append_drop _ (c :: as) (c2 :: bs) rem
                  rw [List.drop_of_length_le hrem1] at h3
                  simpa using h3
                rw [decodeLoop_cons]
                have hstepAB : (ChunkedDecoder.mk DState.payload scr acc any rem idx
                    aft).loopStep c (as ++ c2 :: bs) =
                    ([(c :: as) ++ (c2 :: bs).take (rem - (as.length + 1))],
                      .next (ChunkedDecoder.mk DState.expectCRLF scr acc any 0 0
                        NextState.nextSize) ((c2 :: bs).drop (rem - (as.length + 1)))) := by
                  have h3 : rem ≤ (c :: (as ++ c2 :: bs)).length := by
                    simp [List.length_append]
                    omega
                  simp at h3
                  simp [ChunkedDecoder.loopStep, ChunkedDecoder.start_expect_crlf, h0, h3,
                    htake, hdropX]
                rw [hstepAB]
                unfold seqObs
                rw [decodeLoop_cons]
                have hstepA : (ChunkedDecoder.mk DState.payload scr acc any rem idx
                    aft).loopStep c as = ([c :: as], .halt (.ok (ChunkedDecoder.mk
                      DState.payload scr acc any (rem - (as.length + 1)) idx aft))) := by
                  simp [ChunkedDecoder.loopStep]
                  omega
                rw [hstepA]
                dsimp only
                rw [decodeLoop_cons]
                have hstepB : (ChunkedDecoder.mk DState.payload scr acc any
                    (rem - (as.length + 1)) idx aft).loopStep c2 bs =
                    ([(c2 :: bs).take (rem - (as.length + 1))],
                      .next (ChunkedDecoder.mk DState.expectCRLF scr acc any 0 0
                        NextState.nextSize) ((c2 :: bs).drop (rem - (as.length + 1)))) := by
                  have h4 : rem - (as.length + 1) ≤ (c2 :: bs).length := by simp; omega
                  have h5 : ¬ rem - (as.length + 1) = 0 := by omega
                  simp [ChunkedDecoder.loopStep, ChunkedDecoder.start_expect_crlf, h4,
                    h5] <;> omega
                rw [hstepB]
                dsimp only
                simp [obsOut, List.append_assoc]
              · -- the payload exceeds both fragments: both sides stall in PAYLOAD
                rw [decodeLoop_cons]
                have hstepAB : (ChunkedDecoder.mk DState.payload scr acc any rem idx
                    aft).loopStep c (as ++ c2 :: bs) =
                    ([c :: (as ++ c2 :: bs)], .halt (.ok (ChunkedDecoder.mk DState.payload
                      scr acc any (rem - (as.length + 1 + (bs.length + 1))) idx aft))) := by
                  have h3 : ¬ rem ≤ (c :: (as ++ c2 :: bs)).length := by
                    simp [List.length_append]
                    omega
                  simp only [ChunkedDecoder.loopStep]
                  rw [if_neg h3]
                  have h5 : rem - (c :: (as ++ c2 :: bs)).length =
                      rem - (as.length + 1 + (bs.length + 1)) := by
                    simp [List.length_append]
                    omega
                  rw [h5]
                rw [hstepAB]
                unfold seqObs
                rw [decodeLoop_cons]
                have hstepA : (ChunkedDecoder.mk DState.payload scr acc any rem idx
                    aft).loopStep c as = ([c :: as], .halt (.ok (ChunkedDecoder.mk
                      DState.payload scr acc any (rem - (as.length + 1)) idx aft))) := by
                  simp [ChunkedDecoder.loopStep]
                  omega
                rw [hstepA]
                dsimp only
                rw [decodeLoop_cons]
                have hstepB : (ChunkedDecoder.mk DState.payload scr acc any
                    (rem - (as.length + 1)) idx aft).loopStep c2 bs =
                    ([c2 :: bs], .halt (.ok (ChunkedDecoder.mk DState.payload scr acc any
                      (rem - (as.length + 1) - (bs.length + 1)) idx aft))) := by
                  have h4 : ¬ rem - (as.length + 1) ≤ (c2 :: bs).length := by simp; omega
                  simp only [ChunkedDecoder.loopStep]
                  rw [if_neg h4]
                  have h5 : rem - (as.length + 1) - (c2 :: bs).length =
                      rem - (as.length + 1) - (bs.length + 1) := by simp
                  rw [h5]
                rw [hstepB]
                dsimp only
                simp [obsOut] <;> omega
        | expectCRLF =>
          simp only [stateRank] at hle
          by_cases hidx : idx = 0
          · subst hidx
            by_cases hc : c = '\r'
            · subst hc
              cases as with
              | cons a2 as2 =>
                by_cases ha2 : a2 = '\n'
                · subst ha2
                  cases aft with
                  | nextDone =>
                    have hA : (ChunkedDecoder.mk DState.expectCRLF scr acc any rem 0
                        NextState.nextDone).loopStep '\r' ('\n' :: as2) =
                        ([], .halt (.ok (ChunkedDecoder.mk DState.done scr acc any rem 0
                          NextState.nextDone))) := by
                      simp [ChunkedDecoder.loopStep, ChunkedDecoder.finish_expect_crlf]
                    have hAB : (ChunkedDecoder.mk DState.expectCRLF scr acc any rem 0
                        NextState.nextDone).loopStep '\r' (('\n' :: as2) ++ b) =
                        ([], .halt (.ok (ChunkedDecoder.mk DState.done scr acc any rem 0
                          NextState.nextDone))) := by
                      simp [ChunkedDecoder.loopStep, ChunkedDecoder.finish_expect_crlf]
                    exact seqObs_of_halt_done hA hAB rfl
                  | nextSize =>
                    have hA : (ChunkedDecoder.mk DState.expectCRLF scr acc any rem 0
                        NextState.nextSize).loopStep '\r' ('\n' :: as2) =
                        ([], .next (ChunkedDecoder.mk DState.size scr acc any rem 0
                          NextState.nextSize) as2) := by
                      simp [ChunkedDecoder.loopStep, ChunkedDecoder.finish_expect_crlf]
                    have hAB : (ChunkedDecoder.mk DState.expectCRLF scr acc any rem 0
                        NextState.nextSize).loopStep '\r' (('\n' :: as2) ++ b) =
                        ([], .next (ChunkedDecoder.mk DState.size scr acc any rem 0
                          NextState.nextSize) (as2 ++ b)) := by
                      simp [ChunkedDecoder.loopStep, ChunkedDecoder.finish_expect_crlf]
                    refine seqObs_of_steps hA hAB (ih _ as2 b ?_)
                    simp only [stateRank, List.length_cons] at hle ⊢
                    omega
                · have hA : (ChunkedDecoder.mk DState.expectCRLF scr acc any rem 0
                      aft).loopStep '\r' (a2 :: as2) =
                      ([], .next (ChunkedDecoder.mk DState.expectCRLF scr acc any rem 1 aft)
                        (a2 :: as2)) := by
                    simp [ChunkedDecoder.loopStep, ChunkedDecoder.expectStep, ha2]
                  have hAB : (ChunkedDecoder.mk DState.expectCRLF scr acc any rem 0
                      aft).loopStep '\r' ((a2 :: as2) ++ b) =
                      ([], .next (ChunkedDecoder.mk DState.expectCRLF scr acc any rem 1 aft)
                        ((a2 :: as2) ++ b)) := by
                    simp [ChunkedDecoder.loopStep, ChunkedDecoder.expectStep, ha2]
                  refine seqObs_of_steps hA hAB (ih _ (a2 :: as2) b ?_)
                  simp only [stateRank, List.length_cons] at hle ⊢
                  omega
              | nil =>
                obtain ⟨c2, bs, rfl⟩ := List.exists_cons_of_ne_nil hb
                have hstepA : (ChunkedDecoder.mk DState.expectCRLF scr acc any rem 0
                    aft).loopStep '\r' [] =
                    ([], .next (ChunkedDecoder.mk DState.expectCRLF scr acc any rem 1 aft)
                      []) := by
                  simp [ChunkedDecoder.loopStep, ChunkedDecoder.expectStep]
                by_cases hc2 : c2 = '\n'
                · subst hc2
                  cases aft with
                  | nextDone =>
                    have hAB : (ChunkedDecoder.mk DState.expectCRLF scr acc any rem 0
                        NextState.nextDone).loopStep '\r' ([] ++ '\n' :: bs) =
                        ([], .halt (.ok (ChunkedDecoder.mk DState.done scr acc any rem 0
                          NextState.nextDone))) := by
                      simp [ChunkedDecoder.loopStep, ChunkedDecoder.finish_expect_crlf]
                    have hstepB : (ChunkedDecoder.mk DState.expectCRLF scr acc any rem 1
                        NextState.nextDone).loopStep '\n' bs =
                        ([], .halt (.ok (ChunkedDecoder.mk DState.done scr acc any rem 0
                          NextState.nextDone))) := by
                      simp [ChunkedDecoder.loopStep, ChunkedDecoder.expectStep,
                        ChunkedDecoder.finish_expect_crlf]
                    rw [decodeLoop_cons, hAB]
                    unfold seqObs
                    rw [decodeLoop_cons, hstepA]
                    dsimp only
                    rw [decodeLoop_nil]
                    dsimp only
                    rw [decodeLoop_cons, hstepB]
                    simp [obsOut]
                  | nextSize =>
                    have hAB : (ChunkedDecoder.mk DState.expectCRLF scr acc any rem 0
                        NextState.nextSize).loopStep '\r' ([] ++ '\n' :: bs) =
                        ([], .next (ChunkedDecoder.mk DState.size scr acc any rem 0
                          NextState.nextSize) bs) := by
                      simp [ChunkedDecoder.loopStep, ChunkedDecoder.finish_expect_crlf]
                    have hstepB : (ChunkedDecoder.mk DState.expectCRLF scr acc any rem 1
                        NextState.nextSize).loopStep '\n' bs =
                        ([], .next (ChunkedDecoder.mk DState.size scr acc any rem 0
                          NextState.nextSize) bs) := by
                      simp [ChunkedDecoder.loopStep, ChunkedDecoder.expectStep,
                        ChunkedDecoder.finish_expect_crlf]
                    rw [decodeLoop_cons, hAB]
                    unfold seqObs
                    rw [decodeLoop_cons, hstepA]
                    dsimp only
                    rw [decodeLoop_nil]
                    dsimp only
                    rw [decodeLoop_cons, hstepB]
                    dsimp only
                    simp [obsOut]
                · have hAB : (ChunkedDecoder.mk DState.expectCRLF scr acc any rem 0
                      aft).loopStep '\r' ([] ++ c2 :: bs) =
                      ([], .next (ChunkedDecoder.mk DState.expectCRLF scr acc any rem 1 aft)
                        (c2 :: bs)) := by
                    simp [ChunkedDecoder.loopStep, ChunkedDecoder.expectStep, hc2]
                  rw [decodeLoop_cons, hAB]
                  unfold seqObs
                  rw [decodeLoop_cons, hstepA]
                  dsimp only
                  rw [decodeLoop_nil]
                  dsimp only
                  simp [obsOut]
            · have hA : (ChunkedDecoder.mk DState.expectCRLF scr acc any rem 0
                  aft).loopStep c as = ([], .halt (.error .expectedCRLF)) := by
                simp [ChunkedDecoder.loopStep, ChunkedDecoder.expectStep, hc]
              have hAB : (ChunkedDecoder.mk DState.expectCRLF scr acc any rem 0
                  aft).loopStep c (as ++ b) = ([], .halt (.error .expectedCRLF)) := by
                simp [ChunkedDecoder.loopStep, ChunkedDecoder.expectStep, hc]
              exact seqObs_of_halt_error hA hAB
          · by_cases hc : c = '\n'
            · subst hc
              by_cases h2 : idx + 1 = 2
              · have hidx1 : idx = 1 := by omega
                subst hidx1
                cases aft with
                | nextDone =>
                  have hA : (ChunkedDecoder.mk DState.expectCRLF scr acc any rem 1
                      NextState.nextDone).loopStep '\n' as =
                      ([], .halt (.ok (ChunkedDecoder.mk DState.done scr acc any rem 0
                        NextState.nextDone))) := by
                    simp [ChunkedDecoder.loopStep, ChunkedDecoder.expectStep,
                      ChunkedDecoder.finish_expect_crlf]
                  have hAB : (ChunkedDecoder.mk DState.expectCRLF scr acc any rem 1
                      NextState.nextDone).loopStep '\n' (as ++ b) =
                      ([], .halt (.ok (ChunkedDecoder.mk DState.done scr acc any rem 0
                        NextState.nextDone))) := by
                    simp [ChunkedDecoder.loopStep, ChunkedDecoder.expectStep,
                      ChunkedDecoder.finish_expect_crlf]
                  exact seqObs_of_halt_done hA hAB rfl
                | nextSize =>
                  have hA : (ChunkedDecoder.mk DState.expectCRLF scr acc any rem 1
                      NextState.nextSize).loopStep '\n' as =
                      ([], .next (ChunkedDecoder.mk DState.size scr acc any rem 0
                        NextState.nextSize) as) := by
                    simp [ChunkedDecoder.loopStep, ChunkedDecoder.expectStep,
                      ChunkedDecoder.finish_expect_crlf]
                  have hAB : (ChunkedDecoder.mk DState.expectCRLF scr acc any rem 1
                      NextState.nextSize).loopStep '\n' (as ++ b) =
                      ([], .next (ChunkedDecoder.mk DState.size scr acc any rem 0
                        NextState.nextSize) (as ++ b)) := by
                    simp [ChunkedDecoder.loopStep, ChunkedDecoder.expectStep,
                      ChunkedDecoder.finish_expect_crlf]
                  refine seqObs_of_steps hA hAB (ih _ as b ?_)
                  simp only [stateRank]
                  omega
              · have hA : (ChunkedDecoder.mk DState.expectCRLF scr acc any rem idx
                    aft).loopStep '\n' as =
                    ([], .next (ChunkedDecoder.mk DState.expectCRLF scr acc any rem
                      (idx + 1) aft) as) := by
                  simp [ChunkedDecoder.loopStep, ChunkedDecoder.expectStep, hidx, h2]
                have hAB : (ChunkedDecoder.mk DState.expectCRLF scr acc any rem idx
                    aft).loopStep '\n' (as ++ b) =
                    ([], .next (ChunkedDecoder.mk DState.expectCRLF scr acc any rem
                      (idx + 1) aft) (as ++ b)) := by
                  simp [ChunkedDecoder.loopStep, ChunkedDecoder.expectStep, hidx, h2]
                refine seqObs_of_steps hA hAB (ih _ as b ?_)
                simp only [stateRank]
                omega
            · have hA : (ChunkedDecoder.mk DState.expectCRLF scr acc any rem idx
                  aft).loopStep c as = ([], .halt (.error .expectedCRLF)) := by
                simp [ChunkedDecoder.loopStep, ChunkedDecoder.expectStep, hidx, hc]
              have hAB : (ChunkedDecoder.mk DState.expectCRLF scr acc any rem idx
                  aft).loopStep c (as ++ b) = ([], .halt (.error .expectedCRLF)) := by
                simp [ChunkedDecoder.loopStep, ChunkedDecoder.expectStep, hidx, hc]
              exact seqObs_of_halt_error hA hAB


/-- Feeding `a ++ b` in one call is observationally the same as feeding `a`
then `b`: same concatenated callback output, same result. -/
theorem decodeLoop_append (d : ChunkedDecoder) (a b : List Char) :
    obsOut (d.decodeLoop (a ++ b)) = seqObs d a b :=
  decodeLoop_append_aux (2 * a.length + stateRank d.state) d a b (Nat.le_refl _)

/-- Feeding a fragment list in order is observationally the same as feeding
its concatenation in a single call. -/
theorem decodeSeq_obs (frags : List (List Char)) :
    ∀ d : ChunkedDecoder,
      obsOut (decodeSeq d frags) = obsOut (d.decode_chunk frags.flatten) := by
  induction frags with
  | nil =>
    intro d
    rw [decode_chunk_eq_decodeLoop]
    simp [decodeSeq, List.flatten_nil, decodeLoop_nil]
  | cons f fs ih =>
    intro d
    rw [decode_chunk_eq_decodeLoop, List.flatten_cons, decodeLoop_append d f fs.flatten]
    unfold decodeSeq
    rw [decode_chunk_eq_decodeLoop]
    rcases hY : d.decodeLoop f with ⟨o, r⟩
    cases r with
    | error e =>
      unfold seqObs
      rw [hY]
      simp [obsOut]
    | ok d1 =>
      unfold seqObs
      rw [hY]
      have hr := ih d1
      rw [decode_chunk_eq_decodeLoop] at hr
      have h1 := congrArg Prod.fst hr
      have h2 := congrArg Prod.snd hr
      simp only [obsOut] at h1 h2
      simp [obsOut, h1, h2]

/-- C1: for a well-formed stream and any split of it into consecutive
non-empty fragments, feeding the fragments in order yields exactly the same
concatenated callback output — and the same final result — as feeding the
whole stream as a single fragment. -/
theorem fragmentation_invariance :
    ∀ (chunks : List (List Char × List Char)) (frags : List (List Char)),
      (∀ cp ∈ chunks,
        (∀ c ∈ cp.1, 0 ≤ hex_value c) ∧ hexListVal cp.1 = cp.2.length ∧ cp.2 ≠ []) →
      (∀ f ∈ frags, f ≠ []) →
      frags.flatten = encodeStream chunks →
      (decodeSeq ChunkedDecoder.init frags).1.flatten =
          (ChunkedDecoder.init.decode_chunk (encodeStream chunks)).1.flatten ∧
        (decodeSeq ChunkedDecoder.init frags).2 =
          (ChunkedDecoder.init.decode_chunk (encodeStream chunks)).2 := by
  intro chunks frags hwf hne hflat
  have h := decodeSeq_obs frags ChunkedDecoder.init
  rw [hflat] at h
  have h1 := congrArg Prod.fst h
  have h2 := congrArg Prod.snd h
  simp only [obsOut] at h1 h2
  exact ⟨h1, h2⟩

theorem fragmentation_invariance_witness :
    (decodeSeq ChunkedDecoder.init
        ["5\r\nhe".toList, "llo\r\n0".toList, "\r\n\r\n".toList]).1.flatten =
      (ChunkedDecoder.init.decode_chunk
        (encodeStream [(['5'], "hello".toList)])).1.flatten ∧
    (decodeSeq ChunkedDecoder.init
        ["5\r\nhe".toList, "llo\r\n0".toList, "\r\n\r\n".toList]).2 =
      (ChunkedDecoder.init.decode_chunk (encodeStream [(['5'], "hello".toList)])).2 :=
  fragmentation_invariance [(['5'], "hello".toList)]
    ["5\r\nhe".toList, "llo\r\n0".toList, "\r\n\r\n".toList]
    (by decide) (by decide) (by decide)

/-- C4: DONE is absorbing — from the DONE state `decode` is a no-op
(no callback, no state change, no error), and whatever input remains in the
fragment that completed the terminal chunk (here: any `extra` appended to a
completing input `s`) is ignored without error and without output. -/
theorem done_absorbing :
    (∀ (d : ChunkedDecoder) (chunk : List Char), d.state = DState.done →
        d.decode_chunk chunk = ([], .ok d)) ∧
    (∀ (d : ChunkedDecoder) (s extra : List Char) (o : List (List Char))
        (d' : ChunkedDecoder),
        d.decode_chunk s = (o, .ok d') → d'.state = DState.done →
        (d.decode_chunk (s ++ extra)).1.flatten = o.flatten ∧
          (d.decode_chunk (s ++ extra)).2 = .ok d') := by
  constructor
  · intro d chunk hs
    rw [decode_chunk_eq_decodeLoop]
    exact decodeLoop_done hs chunk
  · intro d s extra o d' hs hdone
    rw [decode_chunk_eq_decodeLoop] at hs ⊢
    have h := decodeLoop_append d s extra
    unfold seqObs at h
    rw [hs] at h
    dsimp only at h
    rw [decodeLoop_done hdone extra] at h
    have h1 := congrArg Prod.fst h
    have h2 := congrArg Prod.snd h
    simp only [obsOut] at h1 h2
    simp at h1 h2
    exact ⟨h1, h2⟩

theorem done_absorbing_witness :
    doneDecoder.decode_chunk "XYZ".toList = ([], .ok doneDecoder) ∧
    (ChunkedDecoder.init.decode_chunk ("0\r\n\r\n".toList ++ "XYZ".toList)).1.flatten =
      ([] : List (List Char)).flatten ∧
    (ChunkedDecoder.init.decode_chunk ("0\r\n\r\n".toList ++ "XYZ".toList)).2 =
      .ok doneDecoder := by
  refine ⟨done_absorbing.1 doneDecoder "XYZ".toList rfl, ?_⟩
  have hs : ChunkedDecoder.init.decode_chunk ("0\r\n\r\n".toList) =
      ([], .ok doneDecoder) := by
    rw [decode_chunk_eq_decodeLoop]
    have h := decodeLoop_encodeStream [] (by simp)
    simpa using h
  exact done_absorbing.2 ChunkedDecoder.init "0\r\n\r\n".toList "XYZ".toList []
    doneDecoder hs rfl


end ChunkedStream
